import Mathlib

/-!
# Sparse Cholesky factorization: block structure, index translation, smoothing

A verification development for `linalg/sparsecholesky.hpp` (namespace `ngla`).

Conventions of the embedding:

* the `int` arrays of `SparseCholeskyTM` (`order`, `firstinrow`, `firstinrow_ri`,
  `rowindex2`, `blocks`) hold array offsets and permuted indices; they are lists of
  natural numbers here, and every `int` expression of the source that subtracts is
  evaluated in `Int`, so an intermediate value may be negative;
* the `int` indices handed to the functions are natural numbers as well, and `int`
  arithmetic is exact (signed overflow is undefined in the source language);
* an array access outside the bounds, and a `Range` that does not fit the array,
  yield `none`; a `FlatArray<int>` result is the list of its entries;
* the generic element type `TM` stays a type parameter.
-/

namespace ngla

/-! ## Data model -/

/-- Modelled from the spec: the `IntRange` type of the array library, which the header
uses and does not declare: a half-open range `[first, next)` of indices. -/
structure IntRange where
  first : Nat
  next : Nat
  deriving DecidableEq, Repr

/-- Modelled from the spec: `IntRange::Size()` of the array library, the `int`
difference `next - first`. -/
def IntRange.Size (r : IntRange) : Int := (r.next : Int) - (r.first : Int)

/-- Membership of an index in the half-open range. -/
def IntRange.Contains (r : IntRange) (i : Nat) : Prop := r.first ≤ i ∧ i < r.next

instance (r : IntRange) (i : Nat) : Decidable (r.Contains i) := by
  unfold IntRange.Contains
  exact inferInstance

/-- Modelled from the spec: `Range (a, b)` of the array library, the range `[a, b)`. -/
def Range (a b : Nat) : IntRange := ⟨a, b⟩

/-- Modelled from the spec: `FlatArray::Range (start, end)` of the array library, the
view of the entries `start, ..., end - 1`. A view that leaves the array is `none`. -/
def FlatArrayRange (a : List Nat) (start stop : Int) : Option (List Nat) :=
  if 0 ≤ start ∧ start ≤ stop ∧ stop ≤ (a.length : Int) then
    some ((a.drop start.toNat).take (stop - start).toNat)
  else none

/-- The index data of `SparseCholeskyTM<TM>`: the members the inline functions of the
header read. -/
structure SparseCholeskyTM where
  height : Nat
  order : List Nat
  firstinrow : List Nat
  firstinrow_ri : List Nat
  rowindex2 : List Nat
  blocks : List Nat
  deriving DecidableEq, Repr

namespace SparseCholeskyTM

/-- Source: `int VHeight() const { return height; }`. -/
def VHeight (s : SparseCholeskyTM) : Nat := s.height

/-- Source: `int VWidth() const { return height; }`. -/
def VWidth (s : SparseCholeskyTM) : Nat := s.height

/-- Source: `IntRange BlockDofs (int bnr) const { return Range(blocks[bnr], blocks[bnr+1]); }`. -/
def BlockDofs (s : SparseCholeskyTM) (bnr : Nat) : Option IntRange := do
  let b0 ← s.blocks[bnr]?
  let b1 ← s.blocks[bnr + 1]?
  pure (Range b0 b1)

/-- The source function
```
FlatArray<int> BlockExtDofs (int bnr) const
{
  auto range = BlockDofs (bnr);
  int base = firstinrow_ri[range.begin()] + range.Size()-1;
  int ext_size =  firstinrow[range.begin()+1]-firstinrow[range.begin()] - range.Size()+1;
  return rowindex2.Range(base, base+ext_size);
}
``` -/
def BlockExtDofs (s : SparseCholeskyTM) (bnr : Nat) : Option (List Nat) := do
  let range ← s.BlockDofs bnr
  let ri ← s.firstinrow_ri[range.first]?
  let f1 ← s.firstinrow[range.first + 1]?
  let f0 ← s.firstinrow[range.first]?
  let base : Int := (ri : Int) + range.Size - 1
  let ext_size : Int := (f1 : Int) - (f0 : Int) - range.Size + 1
  FlatArrayRange s.rowindex2 base (base + ext_size)

/-- The index list of row `r`: `rowindex2` from offset `firstinrow_ri[r]`, of length
`firstinrow[r+1] - firstinrow[r]`. -/
def rowIndices (s : SparseCholeskyTM) (r : Nat) : Option (List Nat) := do
  let ri ← s.firstinrow_ri[r]?
  let f1 ← s.firstinrow[r + 1]?
  let f0 ← s.firstinrow[r]?
  FlatArrayRange s.rowindex2 (ri : Int) ((ri : Int) + ((f1 : Int) - (f0 : Int)))

/-- The boundary array describes a partition of `[0, height)` into `n` blocks:
`n + 1` strictly increasing boundaries, the first `0`, the last `height`. -/
def IsBlockPartition (s : SparseCholeskyTM) (n : Nat) : Prop :=
  s.blocks.length = n + 1 ∧ s.blocks.Pairwise (· < ·) ∧
    s.blocks[0]? = some 0 ∧ s.blocks[n]? = some s.height

instance (s : SparseCholeskyTM) (n : Nat) : Decidable (s.IsBlockPartition n) := by
  unfold IsBlockPartition
  exact inferInstance

/-- Block `b` depends on block `b'`: `b' ≠ b` and some column of `BlockExtDofs b` lies
in `BlockDofs b'`. -/
def dependsOn (s : SparseCholeskyTM) (b b' : Nat) : Prop :=
  b' ≠ b ∧
    match s.BlockExtDofs b, s.BlockDofs b' with
    | some ext, some rg => ∃ c ∈ ext, rg.Contains c
    | _, _ => False

instance (s : SparseCholeskyTM) (b b' : Nat) : Decidable (s.dependsOn b b') := by
  unfold dependsOn
  split
  · exact inferInstance
  · exact inferInstance

/-- The first row of block `b` has an index list that is strictly ascending, has at
least `size - 1` entries, and lists only columns `>=` the row and `< height`. -/
def FirstRowWithinBounds (s : SparseCholeskyTM) (b : Nat) : Prop :=
  match s.BlockDofs b with
  | none => False
  | some rg =>
    match s.rowIndices rg.first with
    | none => False
    | some row =>
      row.Pairwise (· < ·) ∧ rg.Size - 1 ≤ (row.length : Int) ∧
        ∀ c ∈ row, rg.first ≤ c ∧ c < s.height

instance (s : SparseCholeskyTM) (b : Nat) : Decidable (s.FirstRowWithinBounds b) := by
  unfold FirstRowWithinBounds
  split
  · exact inferInstance
  · split
    · exact inferInstance
    · exact inferInstance

end SparseCholeskyTM

/-- A factorization object with four unknowns in two blocks of two rows; the rows list
their off-diagonal columns `[1, 2, 3]`, `[2, 3]`, `[3]`, `[]`. -/
def twoBlocks : SparseCholeskyTM :=
  ⟨4, [0, 1, 2, 3], [0, 3, 5, 6, 6], [0, 1, 3, 4], [1, 2, 3, 3], [0, 2, 4]⟩

/-- The same two blocks with the diagonal column listed first in every row: the rows
list `[0, 1, 3]`, `[1, 3]`, `[2, 3]`, `[3]`. -/
def twoBlocksDiag : SparseCholeskyTM :=
  ⟨4, [0, 1, 2, 3], [0, 3, 5, 7, 8], [0, 3, 5, 7], [0, 1, 3, 1, 3, 2, 3, 3], [0, 2, 4]⟩

/-! ## Index translation and vectors -/

/-- Source: `void SetOrig (int i, int j, const TM & val) { Set (order[i], order[j], val); }`.
`Set` is declared in the header and defined elsewhere, so it is a parameter: any
operation on two internal indices and a value, with any kind of effect `ρ`. -/
def SparseCholeskyTM.SetOrig {TM ρ : Type} (Set : Nat → Nat → TM → ρ) (s : SparseCholeskyTM)
    (i j : Nat) (val : TM) : Option ρ := do
  let oi ← s.order[i]?
  let oj ← s.order[j]?
  pure (Set oi oj val)

/-- The arrays `order` and `inv`, both of length `height`, are bijections of
`[0, height)` inverse to each other. -/
def IsPermutationWithInverse (order inv : List Nat) (height : Nat) : Prop :=
  order.length = height ∧ inv.length = height ∧
    (∀ i, i < height → order.getD i 0 < height ∧ inv.getD (order.getD i 0) 0 = i) ∧
    (∀ p, p < height → inv.getD p 0 < height ∧ order.getD (inv.getD p 0) 0 = p)

instance (order inv : List Nat) (height : Nat) :
    Decidable (IsPermutationWithInverse order inv height) := by
  unfold IsPermutationWithInverse
  exact inferInstance

/-- Modelled from the spec: the vector type `VVector<TV>` of the vector library, which the
header uses and does not declare: `size` entries of type `TV`. -/
structure VVector (TV : Type) where
  size : Nat
  data : Fin size → TV

/-- Source: `virtual AutoVector CreateVector () const { return make_shared<VVector<TV>> (height); }`.
The entries of a fresh vector are not initialised; `content` stands for them. -/
def SparseCholesky.CreateVector {TV : Type} (s : SparseCholeskyTM) (content : Nat → TV) :
    VVector TV :=
  ⟨s.height, fun i => content i.val⟩

/-! ## The smoothing step -/

/-- The three vectors `Smooth (u, f, y)` works on. -/
@[ext]
structure SmoothVectors (n R : Type) where
  u : n → R
  f : n → R
  y : n → R

/-- Modelled from the spec: the correction of `Smooth`, whose body is not in the header;
the line `w = C^{-1} (y - L u)` of its documentation. -/
def smoothCorrection {n R : Type} [Fintype n] [CommRing R] (L : Matrix n n R)
    (Cinv : (n → R) → (n → R)) (st : SmoothVectors n R) : n → R :=
  Cinv (st.y - L.mulVec st.u)

/-- Modelled from the spec: the updates of `Smooth`, whose body is not in the header; the
lines `w = C^{-1} (y - L u)`, `u += w`, `y -= (L+D)^T w` of its documentation. The
right-hand side `f` is a `const` argument. -/
def smoothUpdate {n R : Type} [Fintype n] [CommRing R] (L D : Matrix n n R)
    (Cinv : (n → R) → (n → R)) (st : SmoothVectors n R) : SmoothVectors n R :=
  let w := smoothCorrection L Cinv st
  { u := st.u + w, f := st.f, y := st.y - (L + D).transpose.mulVec w }

/-- Modelled from the spec: `Smooth (u, f, y)`, whose body is not in the header:
the residual `y <- f - (L+D)^T u` is computed, then the updates follow. -/
def Smooth {n R : Type} [Fintype n] [CommRing R] (L D : Matrix n n R)
    (Cinv : (n → R) → (n → R)) (st : SmoothVectors n R) : SmoothVectors n R :=
  smoothUpdate L D Cinv { u := st.u, f := st.f, y := st.f - (L + D).transpose.mulVec st.u }

/-- Modelled from the spec: `C^{-1}` for a set `I` of active unknowns without clustering:
zero outside of `I x I`, and on `I x I` the two-sided inverse of `A` restricted to `I`. -/
def IsRestrictedInverse {n R : Type} [DecidableEq n] [CommRing R] (A Cinv : Matrix n n R)
    (I : Finset n) : Prop :=
  (∀ i j, (i ∉ I ∨ j ∉ I) → Cinv i j = 0) ∧
  (∀ i ∈ I, ∀ k ∈ I, (∑ j ∈ I, A i j * Cinv j k) = if i = k then 1 else 0) ∧
  (∀ i ∈ I, ∀ k ∈ I, (∑ j ∈ I, Cinv i j * A j k) = if i = k then 1 else 0)

/-- Vectors and matrices of the smoothing example: two unknowns, `A = [[2, -1], [-1, 2]]`
split as `L + D + L^T`, the first unknown active. -/
def exampleL : Matrix (Fin 2) (Fin 2) ℚ := !![0, 0; -1, 0]

/-- The diagonal part of the example matrix. -/
def exampleD : Matrix (Fin 2) (Fin 2) ℚ := Matrix.diagonal ![2, 2]

/-- The inverse of the example matrix restricted to the first unknown, zero elsewhere. -/
def exampleCinv : Matrix (Fin 2) (Fin 2) ℚ := !![1 / 2, 0; 0, 0]

/-- The inverse of the whole example matrix. -/
def exampleAinv : Matrix (Fin 2) (Fin 2) ℚ := !![2 / 3, 1 / 3; 1 / 3, 2 / 3]

/-! ## Dense factorization in exact arithmetic -/

/-- Modelled from the spec: the numeric pass of `Factor ()`, whose body is not in the
header, as elimination without pivoting in natural order on a dense matrix: on the rows
and columns `>= k`, `schur A k` is the matrix after the unknowns `0, ..., k-1` are
eliminated (Schur-complement update). A zero pivot, where the factorization fails, shows
as a zero `factorD`. -/
def schur (A : Nat → Nat → ℚ) : Nat → Nat → Nat → ℚ
  | 0, i, j => A i j
  | k + 1, i, j => schur A k i j - schur A k i k / schur A k k k * schur A k k j

/-- Modelled from the spec: the diagonal factor `D` that `Factor ()` computes: the pivots
of the elimination. -/
def factorD (A : Nat → Nat → ℚ) (k : Nat) : ℚ := schur A k k k

/-- Modelled from the spec: the unit lower-triangular factor `L` that `Factor ()`
computes: column `k` is the eliminated column divided by its pivot. -/
def factorL (A : Nat → Nat → ℚ) (i k : Nat) : ℚ :=
  if i = k then 1 else if k < i then schur A k i k / schur A k k k else 0

/-- Modelled from the spec: the forward pass of `Mult`, solving `L w = b`; the first `m`
entries of `w`. -/
def forwardSolve (L : Nat → Nat → ℚ) (b : Nat → ℚ) : Nat → List ℚ
  | 0 => []
  | m + 1 =>
    let w := forwardSolve L b m
    w ++ [b m - ((List.range m).map (fun k => L m k * w.getD k 0)).sum]

/-- Modelled from the spec: the backward pass of `Mult`, solving `L^T x = z`; the last
`m` entries of `x`. -/
def backwardSolve (n : Nat) (L : Nat → Nat → ℚ) (z : List ℚ) : Nat → List ℚ
  | 0 => []
  | m + 1 =>
    let x := backwardSolve n L z m
    let i := n - (m + 1)
    (z.getD i 0 - ((List.range m).map (fun k => L (i + 1 + k) i * x.getD k 0)).sum) :: x

/-- Modelled from the spec: `Mult`, whose body is not in the header, for `n` unknowns in
natural order: forward solve with `L`, scaling by `D^{-1}`, backward solve with `L^T`. -/
def Mult (n : Nat) (L : Nat → Nat → ℚ) (D : Nat → ℚ) (b : Nat → ℚ) : List ℚ :=
  let w := forwardSolve L b n
  let z := (List.range n).map (fun i => w.getD i 0 / D i)
  backwardSolve n L z n

/-- The 5x5 tridiagonal matrix with diagonal `2` and off-diagonal `-1`. -/
def tridiag (i j : Nat) : ℚ :=
  if i < 5 ∧ j < 5 then
    if i = j then 2 else if i + 1 = j ∨ j + 1 = i then -1 else 0
  else 0

/-- The right-hand side `[1, 0, 0, 0, 1]`. -/
def rhs5 (i : Nat) : ℚ := if i = 0 ∨ i = 4 then 1 else 0

/-! ## Views of an array -/

theorem FlatArrayRange_eq_some {a : List Nat} {start stop : Int} {l : List Nat}
    (h : FlatArrayRange a start stop = some l) :
    0 ≤ start ∧ start ≤ stop ∧ stop ≤ (a.length : Int) ∧
      l = (a.drop start.toNat).take (stop - start).toNat := by
  unfold FlatArrayRange at h
  split at h
  · rename_i hc
    obtain ⟨h0, h1, h2⟩ := hc
    simp only [Option.some.injEq] at h
    exact ⟨h0, h1, h2, h.symm⟩
  · simp at h

theorem FlatArrayRange_of_fits {a : List Nat} {start stop : Int}
    (h0 : 0 ≤ start) (h1 : start ≤ stop) (h2 : stop ≤ (a.length : Int)) :
    FlatArrayRange a start stop = some ((a.drop start.toNat).take (stop - start).toNat) := by
  unfold FlatArrayRange
  rw [if_pos ⟨h0, h1, h2⟩]

theorem FlatArrayRange_length {a : List Nat} {start stop : Int} {l : List Nat}
    (h : FlatArrayRange a start stop = some l) : (l.length : Int) = stop - start := by
  obtain ⟨h0, h1, h2, rfl⟩ := FlatArrayRange_eq_some h
  rw [List.length_take, List.length_drop]
  omega

theorem FlatArrayRange_getElem? {a : List Nat} {start stop : Int} {l : List Nat}
    (h : FlatArrayRange a start stop = some l) (k : Nat) (hk : k < l.length) :
    l[k]? = a[start.toNat + k]? := by
  have hlen := FlatArrayRange_length h
  obtain ⟨h0, h1, h2, rfl⟩ := FlatArrayRange_eq_some h
  rw [List.getElem?_take_of_lt (by omega), List.getElem?_drop]

/-- Moving the start of a view forward by `k` drops its first `k` entries. -/
theorem FlatArrayRange_shift {a : List Nat} {start stop : Int} {l : List Nat}
    (h : FlatArrayRange a start stop = some l) (k : Nat) (hk : k ≤ l.length) :
    FlatArrayRange a (start + k) stop = some (l.drop k) := by
  have hlen := FlatArrayRange_length h
  obtain ⟨h0, h1, h2, hl⟩ := FlatArrayRange_eq_some h
  have e1 : (start + k).toNat = start.toNat + k := by omega
  have e2 : (stop - (start + k)).toNat = (stop - start).toNat - k := by omega
  rw [FlatArrayRange_of_fits (by omega) (by omega) h2, hl, List.drop_take, List.drop_drop,
    e1, e2]

/-! ## The extension columns of a block -/

/-- The block of `BlockDofs`, when both boundaries exist. -/
theorem BlockDofs_eq {s : SparseCholeskyTM} {b r e : Nat}
    (hb0 : s.blocks[b]? = some r) (hb1 : s.blocks[b + 1]? = some e) :
    s.BlockDofs b = some ⟨r, e⟩ := by
  simp [SparseCholeskyTM.BlockDofs, hb0, hb1, Range]

theorem BlockDofs_some {s : SparseCholeskyTM} {b : Nat} {rg : IntRange}
    (h : s.BlockDofs b = some rg) :
    s.blocks[b]? = some rg.first ∧ s.blocks[b + 1]? = some rg.next := by
  unfold SparseCholeskyTM.BlockDofs at h
  cases h0 : s.blocks[b]? with
  | none => simp [h0] at h
  | some r =>
    cases h1 : s.blocks[b + 1]? with
    | none => simp [h0, h1] at h
    | some e =>
      simp [h0, h1, Range] at h
      subst h
      simp

/-- The source expression of `BlockExtDofs`, once the array reads are resolved. -/
theorem BlockExtDofs_unfold {s : SparseCholeskyTM} {b r e ri f0 f1 : Nat}
    (hb0 : s.blocks[b]? = some r) (hb1 : s.blocks[b + 1]? = some e)
    (hri : s.firstinrow_ri[r]? = some ri) (hf0 : s.firstinrow[r]? = some f0)
    (hf1 : s.firstinrow[r + 1]? = some f1) :
    s.BlockExtDofs b = FlatArrayRange s.rowindex2 ((ri : Int) + ((e : Int) - (r : Int)) - 1)
      ((ri : Int) + ((e : Int) - (r : Int)) - 1 +
        ((f1 : Int) - (f0 : Int) - ((e : Int) - (r : Int)) + 1)) := by
  unfold SparseCholeskyTM.BlockExtDofs
  rw [BlockDofs_eq hb0 hb1]
  simp only [Option.bind_eq_bind, Option.some_bind, hri, hf1, hf0, IntRange.Size]

theorem rowIndices_unfold {s : SparseCholeskyTM} {r ri f0 f1 : Nat}
    (hri : s.firstinrow_ri[r]? = some ri) (hf0 : s.firstinrow[r]? = some f0)
    (hf1 : s.firstinrow[r + 1]? = some f1) :
    s.rowIndices r =
      FlatArrayRange s.rowindex2 (ri : Int) ((ri : Int) + ((f1 : Int) - (f0 : Int))) := by
  simp [SparseCholeskyTM.rowIndices, hri, hf0, hf1]

/-- A row with an index list has its three offsets. -/
theorem rowIndices_some {s : SparseCholeskyTM} {r : Nat} {row : List Nat}
    (hrow : s.rowIndices r = some row) :
    ∃ ri f0 f1, s.firstinrow_ri[r]? = some ri ∧ s.firstinrow[r]? = some f0 ∧
      s.firstinrow[r + 1]? = some f1 := by
  unfold SparseCholeskyTM.rowIndices at hrow
  cases hri : s.firstinrow_ri[r]? with
  | none => simp [hri] at hrow
  | some ri =>
    cases hf1 : s.firstinrow[r + 1]? with
    | none => simp [hri, hf1] at hrow
    | some f1 =>
      cases hf0 : s.firstinrow[r]? with
      | none => simp [hri, hf1, hf0] at hrow
      | some f0 => exact ⟨ri, f0, f1, rfl, rfl, rfl⟩

/-- On a non-empty block whose first row has at least `size - 1` indices,
`BlockExtDofs` is that row's index list without its first `size - 1` entries. -/
theorem BlockExtDofs_eq_drop {s : SparseCholeskyTM} {b r e : Nat} {row : List Nat}
    (hb0 : s.blocks[b]? = some r) (hb1 : s.blocks[b + 1]? = some e) (hre : r < e)
    (hrow : s.rowIndices r = some row) (hlen : e - r - 1 ≤ row.length) :
    s.BlockExtDofs b = some (row.drop (e - r - 1)) := by
  obtain ⟨ri, f0, f1, hri, hf0, hf1⟩ := rowIndices_some hrow
  rw [rowIndices_unfold hri hf0 hf1] at hrow
  rw [BlockExtDofs_unfold hb0 hb1 hri hf0 hf1]
  have hs := FlatArrayRange_shift hrow (e - r - 1) hlen
  have e1 : (ri : Int) + ((e : Int) - (r : Int)) - 1 =
      (ri : Int) + ((e - r - 1 : Nat) : Int) := by omega
  have e2 : (ri : Int) + ((e : Int) - (r : Int)) - 1 +
      ((f1 : Int) - (f0 : Int) - ((e : Int) - (r : Int)) + 1) =
      (ri : Int) + ((f1 : Int) - (f0 : Int)) := by omega
  rw [e1] at e2 ⊢
  rw [e2]
  exact hs

/-- When `BlockExtDofs` returns on a non-empty block, the first row has at least
`size - 1` indices. -/
theorem BlockExtDofs_some_length {s : SparseCholeskyTM} {b r e : Nat} {row ext : List Nat}
    (hb0 : s.blocks[b]? = some r) (hb1 : s.blocks[b + 1]? = some e) (hre : r < e)
    (hrow : s.rowIndices r = some row) (hext : s.BlockExtDofs b = some ext) :
    e - r - 1 ≤ row.length := by
  obtain ⟨ri, f0, f1, hri, hf0, hf1⟩ := rowIndices_some hrow
  rw [rowIndices_unfold hri hf0 hf1] at hrow
  rw [BlockExtDofs_unfold hb0 hb1 hri hf0 hf1] at hext
  have h1 := FlatArrayRange_length hrow
  obtain ⟨_, h2, _, _⟩ := FlatArrayRange_eq_some hext
  omega

/-- In a strictly ascending list above `bg`, the entries after the first `k` are above
`bg + k`. -/
theorem drop_above {row : List Nat} : ∀ (k bg : Nat), row.Pairwise (· < ·) →
    (∀ c ∈ row, bg < c) → ∀ c ∈ row.drop k, bg + k < c := by
  induction row with
  | nil => intro k bg _ _ c hc; simp at hc
  | cons h t ih =>
    intro k bg hpw hab c hc
    cases k with
    | zero => exact hab c (by simpa using hc)
    | succ k =>
      rw [List.drop_succ_cons] at hc
      rw [List.pairwise_cons] at hpw
      have hh : bg < h := hab h (List.mem_cons_self _ _)
      have := ih k (bg + 1) hpw.2 (fun c hc => by have := hpw.1 c hc; omega) c hc
      omega

/-- A strictly ascending list above `bg` that holds every index of `(bg, bg + d]`
starts with exactly these `d` indices: dropping them leaves the entries beyond. -/
theorem drop_eq_filter {row : List Nat} : ∀ (d bg : Nat), row.Pairwise (· < ·) →
    (∀ c ∈ row, bg < c) → (∀ c, bg < c → c < bg + d + 1 → c ∈ row) →
    d ≤ row.length ∧ row.drop d = row.filter (fun c => decide (bg + d + 1 ≤ c)) := by
  induction row with
  | nil =>
    intro d bg _ _ hall
    cases d with
    | zero => simp
    | succ d =>
      have := hall (bg + 1) (by omega) (by omega)
      simp at this
  | cons h t ih =>
    intro d bg hpw hab hall
    cases d with
    | zero =>
      refine ⟨Nat.zero_le _, ?_⟩
      rw [List.drop_zero]
      symm
      rw [List.filter_eq_self]
      intro c hc
      have := hab c hc
      simp only [decide_eq_true_eq]
      omega
    | succ d =>
      rw [List.pairwise_cons] at hpw
      have hh : bg < h := hab h (List.mem_cons_self _ _)
      have hmem := hall (bg + 1) (by omega) (by omega)
      have hhd : h = bg + 1 := by
        rcases List.mem_cons.mp hmem with heq | hin
        · exact heq.symm
        · have := hpw.1 _ hin
          omega
      have hrec := ih d (bg + 1) hpw.2 (fun c hc => by have := hpw.1 c hc; omega)
        (fun c h1 h2 => by
          rcases List.mem_cons.mp (hall c (by omega) (by omega)) with heq | hin
          · omega
          · exact hin)
      refine ⟨by simpa using hrec.1, ?_⟩
      rw [List.drop_succ_cons, List.filter_cons_of_neg (by simp only [decide_eq_true_eq]; omega),
        hrec.2]
      congr 1
      funext c
      congr 1
      apply propext
      omega

/-- The index list of a row whose offsets exist and whose view fits `rowindex2`. -/
theorem rowIndices_of_fits {s : SparseCholeskyTM} {r ri f0 f1 : Nat}
    (hri : s.firstinrow_ri[r]? = some ri) (hf0 : s.firstinrow[r]? = some f0)
    (hf1 : s.firstinrow[r + 1]? = some f1) (hlen : (0 : Int) ≤ (f1 : Int) - (f0 : Int))
    (hfit : (ri : Int) + ((f1 : Int) - (f0 : Int)) ≤ (s.rowindex2.length : Int)) :
    ∃ row, s.rowIndices r = some row ∧ (row.length : Int) = (f1 : Int) - (f0 : Int) ∧
      ∀ k, k < row.length → row[k]? = s.rowindex2[ri + k]? := by
  have h : s.rowIndices r =
      FlatArrayRange s.rowindex2 (ri : Int) ((ri : Int) + ((f1 : Int) - (f0 : Int))) := by
    simp [SparseCholeskyTM.rowIndices, hri, hf0, hf1]
  have hfitted : FlatArrayRange s.rowindex2 (ri : Int) ((ri : Int) + ((f1 : Int) - (f0 : Int))) =
      some ((s.rowindex2.drop (ri : Int).toNat).take
        ((ri : Int) + ((f1 : Int) - (f0 : Int)) - (ri : Int)).toNat) :=
    FlatArrayRange_of_fits (by omega) (by omega) hfit
  refine ⟨_, h.trans hfitted, ?_, ?_⟩
  · have := FlatArrayRange_length hfitted
    omega
  · intro k hk
    have := FlatArrayRange_getElem? hfitted k hk
    simpa using this

/-- C8: for a block `b` with first row `r = blocks[b]`, size `e - r >= 1`, first-row
length `f1 - f0 >= size - 1` and `firstinrow_ri[r] + length <= |rowindex2|`,
`BlockExtDofs b` returns the entries `rowindex2[ri + size - 1 .. ri + length)`: it stays
inside `rowindex2`, has `length - (size - 1)` entries (in-block entries plus extension
entries make up the row), and for a single-row block it is the row's whole index list. -/
theorem BlockExtDofs_is_row_suffix (s : SparseCholeskyTM) (b r e ri f0 f1 : Nat)
    (hb0 : s.blocks[b]? = some r) (hb1 : s.blocks[b + 1]? = some e)
    (hri : s.firstinrow_ri[r]? = some ri) (hf0 : s.firstinrow[r]? = some f0)
    (hf1 : s.firstinrow[r + 1]? = some f1)
    (hsize : (1 : Int) ≤ (e : Int) - (r : Int))
    (hlen : (e : Int) - (r : Int) - 1 ≤ (f1 : Int) - (f0 : Int))
    (hfit : (ri : Int) + ((f1 : Int) - (f0 : Int)) ≤ (s.rowindex2.length : Int)) :
    ∃ ext, s.BlockExtDofs b = some ext ∧
      (∀ k, k < ext.length → ri + (e - r - 1) + k < s.rowindex2.length ∧
        ext[k]? = s.rowindex2[ri + (e - r - 1) + k]?) ∧
      (ext.length : Int) = ((f1 : Int) - (f0 : Int)) - ((e : Int) - (r : Int) - 1) ∧
      ((e : Int) - (r : Int) - 1) + (ext.length : Int) = (f1 : Int) - (f0 : Int) ∧
      (e = r + 1 → s.rowIndices r = some ext) := by
  obtain ⟨row, hrow, hrl, hrk⟩ := rowIndices_of_fits hri hf0 hf1 (by omega) hfit
  have hd : e - r - 1 ≤ row.length := by omega
  refine ⟨row.drop (e - r - 1), BlockExtDofs_eq_drop hb0 hb1 (by omega) hrow hd, ?_, ?_, ?_, ?_⟩
  · intro k hk
    rw [List.length_drop] at hk
    refine ⟨by omega, ?_⟩
    rw [List.getElem?_drop, hrk _ (by omega), Nat.add_assoc]
  · rw [List.length_drop]
    omega
  · rw [List.length_drop]
    omega
  · intro he
    subst he
    simpa using hrow

/-- Witness for C8: a block of two rows whose first row lists three columns. -/
theorem BlockExtDofs_is_row_suffix_witness :
    ∃ ext, SparseCholeskyTM.BlockExtDofs
        ⟨4, [0, 1, 2, 3], [0, 3, 5, 6, 6], [0, 1, 3, 4], [1, 2, 3, 3], [0, 2, 4]⟩ 0 = some ext ∧
      (∀ k, k < ext.length → 0 + (2 - 0 - 1) + k < [1, 2, 3, 3].length ∧
        ext[k]? = [1, 2, 3, 3][0 + (2 - 0 - 1) + k]?) ∧
      (ext.length : Int) = (((3 : Nat) : Int) - ((0 : Nat) : Int)) -
        (((2 : Nat) : Int) - ((0 : Nat) : Int) - 1) ∧
      (((2 : Nat) : Int) - ((0 : Nat) : Int) - 1) + (ext.length : Int) =
        ((3 : Nat) : Int) - ((0 : Nat) : Int) ∧
      (2 = 0 + 1 → SparseCholeskyTM.rowIndices
        ⟨4, [0, 1, 2, 3], [0, 3, 5, 6, 6], [0, 1, 3, 4], [1, 2, 3, 3], [0, 2, 4]⟩ 0 = some ext) :=
  BlockExtDofs_is_row_suffix
    ⟨4, [0, 1, 2, 3], [0, 3, 5, 6, 6], [0, 1, 3, 4], [1, 2, 3, 3], [0, 2, 4]⟩ 0 0 2 0 0 3
    (by decide) (by decide) (by decide) (by decide) (by decide) (by decide) (by decide)
    (by decide)

/-! ## The block partition -/

/-- Entries of a strictly increasing list are ordered like their positions. -/
theorem strictIncreasing_le {l : List Nat} (hl : l.Pairwise (· < ·)) {i j x y : Nat}
    (hij : i ≤ j) (hi : l[i]? = some x) (hj : l[j]? = some y) : x ≤ y := by
  obtain ⟨hi', rfl⟩ := List.getElem?_eq_some.mp hi
  obtain ⟨hj', rfl⟩ := List.getElem?_eq_some.mp hj
  rcases Nat.eq_or_lt_of_le hij with h | h
  · subst h
    exact Nat.le_refl _
  · exact Nat.le_of_lt (List.pairwise_iff_getElem.mp hl i j hi' hj' h)

/-- Between a boundary that is `<= r` and a later boundary that is `> r` there is a
block holding `r`. -/
theorem exists_block_of_boundaries {l : List Nat} {r y0 : Nat} (h0 : l[0]? = some y0)
    (hy0 : y0 ≤ r) : ∀ m x, l[m]? = some x → r < x →
    ∃ k a c, k < m ∧ l[k]? = some a ∧ l[k + 1]? = some c ∧ a ≤ r ∧ r < c := by
  intro m
  induction m with
  | zero =>
    intro x hx hrx
    rw [h0] at hx
    simp only [Option.some.injEq] at hx
    omega
  | succ m ih =>
    intro x hx hrx
    have hm : m < l.length := by
      have := (List.getElem?_eq_some.mp hx).1
      omega
    by_cases hz : r < l[m]
    · obtain ⟨k, a, c, hk, hka, hkc, har, hrc⟩ := ih l[m] (List.getElem?_eq_getElem hm) hz
      exact ⟨k, a, c, by omega, hka, hkc, har, hrc⟩
    · exact ⟨m, l[m], x, by omega, List.getElem?_eq_getElem hm, hx, by omega, hrx⟩

/-- C1: for a strictly increasing boundary array with `blocks[0] = 0` and last entry
`height`, every index `r` in `[0, height)` lies in `BlockDofs b` for exactly one block
`b`, and consecutive blocks meet: the end of `BlockDofs b` is the begin of
`BlockDofs (b+1)`. -/
theorem blocks_partition_exact (s : SparseCholeskyTM) (n : Nat) (hp : s.IsBlockPartition n) :
    (∀ r, r < s.height → ∃! b, b < n ∧ ∃ rg, s.BlockDofs b = some rg ∧ rg.Contains r) ∧
    (∀ b, b + 1 < n → ∃ rg rg', s.BlockDofs b = some rg ∧ s.BlockDofs (b + 1) = some rg' ∧
      rg.next = rg'.first) := by
  obtain ⟨hlen, hpw, h0, hn⟩ := hp
  constructor
  · intro r hr
    obtain ⟨k, a, c, hk, hka, hkc, har, hrc⟩ :=
      exists_block_of_boundaries h0 (Nat.zero_le r) n s.height hn hr
    refine ⟨k, ⟨hk, ⟨a, c⟩, BlockDofs_eq hka hkc, har, hrc⟩, ?_⟩
    rintro k' ⟨_, rg, hrg, hfirst, hnext⟩
    obtain ⟨hk0, hk1⟩ := BlockDofs_some hrg
    by_contra hne
    rcases Nat.lt_or_gt_of_ne hne with hlt | hgt
    · have := strictIncreasing_le hpw (Nat.succ_le_of_lt hlt) hk1 hka
      omega
    · have := strictIncreasing_le hpw (Nat.succ_le_of_lt hgt) hkc hk0
      omega
  · intro b hb
    have h1 : b < s.blocks.length := by omega
    have h2 : b + 1 < s.blocks.length := by omega
    have h3 : b + 1 + 1 < s.blocks.length := by omega
    exact ⟨⟨s.blocks[b], s.blocks[b + 1]⟩, ⟨s.blocks[b + 1], s.blocks[b + 1 + 1]⟩,
      BlockDofs_eq (List.getElem?_eq_getElem h1) (List.getElem?_eq_getElem h2),
      BlockDofs_eq (List.getElem?_eq_getElem h2) (List.getElem?_eq_getElem h3), rfl⟩

/-- Witness for C1: the two-block object. -/
theorem blocks_partition_exact_witness :
    twoBlocks.IsBlockPartition 2 ∧
    ((∀ r, r < twoBlocks.height →
        ∃! b, b < 2 ∧ ∃ rg, twoBlocks.BlockDofs b = some rg ∧ rg.Contains r) ∧
      (∀ b, b + 1 < 2 → ∃ rg rg', twoBlocks.BlockDofs b = some rg ∧
        twoBlocks.BlockDofs (b + 1) = some rg' ∧ rg.next = rg'.first)) :=
  ⟨by decide, blocks_partition_exact twoBlocks 2 (by decide)⟩

/-! ## Extension columns and the blocks that own them -/

/-- C3, with the diagonal column listed: in `twoBlocksDiag` the first row of block
`[0, 2)` lists `[0, 1, 3]`, ascending without repeats and every entry `>= 0`, yet
`BlockExtDofs 0` returns `[1, 3]`, and column `1` is below `blocks[1] = 2`. -/
theorem BlockExtDofs_diag_row_not_beyond :
    twoBlocksDiag.blocks[0]? = some 0 ∧ twoBlocksDiag.blocks[0 + 1]? = some 2 ∧
    twoBlocksDiag.rowIndices 0 = some [0, 1, 3] ∧ [0, 1, 3].Pairwise (· < ·) ∧
    (∀ c ∈ [0, 1, 3], 0 ≤ c) ∧ twoBlocksDiag.BlockExtDofs 0 = some [1, 3] ∧
    ¬ (∀ c ∈ [1, 3], 2 ≤ c) := by
  decide

/-- C3, amended: for a block `b = [r, e)` whose first row's index list is ascending
without repeats and lists only columns `> r` (the diagonal is not listed), every column
returned by `BlockExtDofs b` is `>= blocks[b+1] = e`. -/
theorem BlockExtDofs_beyond_block (s : SparseCholeskyTM) (b r e : Nat) (row ext : List Nat)
    (hb0 : s.blocks[b]? = some r) (hb1 : s.blocks[b + 1]? = some e) (hre : r < e)
    (hrow : s.rowIndices r = some row) (hasc : row.Pairwise (· < ·))
    (hoff : ∀ c ∈ row, r < c) (hext : s.BlockExtDofs b = some ext) :
    ∀ c ∈ ext, e ≤ c := by
  have hlen := BlockExtDofs_some_length hb0 hb1 hre hrow hext
  rw [BlockExtDofs_eq_drop hb0 hb1 hre hrow hlen] at hext
  simp only [Option.some.injEq] at hext
  subst hext
  intro c hc
  have := drop_above (e - r - 1) r hasc hoff c hc
  omega

/-- Witness for C3, amended: block `[0, 2)` of `twoBlocks`, whose first row lists
`[1, 2, 3]`. -/
theorem BlockExtDofs_beyond_block_witness :
    twoBlocks.BlockExtDofs 0 = some [2, 3] ∧ ∀ c ∈ [2, 3], 2 ≤ c :=
  ⟨by decide, BlockExtDofs_beyond_block twoBlocks 0 0 2 [1, 2, 3] [2, 3] (by decide)
    (by decide) (by decide) (by decide) (by decide) (by decide) (by decide)⟩

/-- C9: for a block `b = [bg, en)` whose first row's index list is strictly ascending,
lists only columns `> bg` and lists every in-block column `bg+1, ..., en-1`,
`BlockExtDofs b` is, in order, the sublist of that row's entries that are `>= en`: it
returns no column of the block and drops no column outside of it. -/
theorem BlockExtDofs_eq_out_of_block (s : SparseCholeskyTM) (b bg en : Nat) (row : List Nat)
    (hb0 : s.blocks[b]? = some bg) (hb1 : s.blocks[b + 1]? = some en) (hne : bg < en)
    (hrow : s.rowIndices bg = some row) (hasc : row.Pairwise (· < ·))
    (hoff : ∀ c ∈ row, bg < c) (hin : ∀ c, bg < c → c < en → c ∈ row) :
    s.BlockExtDofs b = some (row.filter (fun c => decide (en ≤ c))) ∧
    (∀ ext, s.BlockExtDofs b = some ext →
      (∀ c ∈ ext, ¬ (bg ≤ c ∧ c < en)) ∧ (∀ c ∈ row, ¬ (bg ≤ c ∧ c < en) → c ∈ ext)) := by
  have hd := drop_eq_filter (en - bg - 1) bg hasc hoff
    (fun c h1 h2 => hin c h1 (by omega))
  have hen : bg + (en - bg - 1) + 1 = en := by omega
  rw [hen] at hd
  have hres := BlockExtDofs_eq_drop hb0 hb1 hne hrow hd.1
  rw [hd.2] at hres
  refine ⟨hres, ?_⟩
  intro ext hext
  rw [hres] at hext
  simp only [Option.some.injEq] at hext
  subst hext
  constructor
  · intro c hc
    have := (List.mem_filter.mp hc).2
    simp only [decide_eq_true_eq] at this
    omega
  · intro c hc hnot
    have := hoff c hc
    exact List.mem_filter.mpr ⟨hc, by simp only [decide_eq_true_eq]; omega⟩

/-- Witness for C9: block `[0, 2)` of `twoBlocks`, whose first row lists `[1, 2, 3]`. -/
theorem BlockExtDofs_eq_out_of_block_witness :
    twoBlocks.BlockExtDofs 0 = some ([1, 2, 3].filter (fun c => decide (2 ≤ c))) ∧
    (∀ ext, twoBlocks.BlockExtDofs 0 = some ext →
      (∀ c ∈ ext, ¬ (0 ≤ c ∧ c < 2)) ∧ (∀ c ∈ [1, 2, 3], ¬ (0 ≤ c ∧ c < 2) → c ∈ ext)) :=
  BlockExtDofs_eq_out_of_block twoBlocks 0 0 2 [1, 2, 3] (by decide) (by decide) (by decide)
    (by decide) (by decide) (by decide)
    (fun c h1 h2 => by
      have hc : c = 1 := by omega
      subst hc
      decide)

/-! ## The block dependency graph -/

/-- When `BlockExtDofs` returns, the block has both of its boundaries. -/
theorem BlockExtDofs_some_block {s : SparseCholeskyTM} {b : Nat} {ext : List Nat}
    (hext : s.BlockExtDofs b = some ext) : ∃ rg, s.BlockDofs b = some rg := by
  unfold SparseCholeskyTM.BlockExtDofs at hext
  cases h : s.BlockDofs b with
  | none => simp [h] at hext
  | some rg => exact ⟨rg, rfl⟩

/-- Under the hypotheses of C2 a dependency edge leads to a later block. -/
theorem dependsOn_lt {s : SparseCholeskyTM} {n : Nat} (hp : s.IsBlockPartition n)
    (hrows : ∀ b, b < n → s.FirstRowWithinBounds b) {b b' : Nat}
    (hdep : s.dependsOn b b') : b < b' := by
  obtain ⟨hlen, hpw, -, -⟩ := hp
  obtain ⟨hne, hcol⟩ := hdep
  cases hext : s.BlockExtDofs b with
  | none => simp [hext] at hcol
  | some ext =>
  cases hrg' : s.BlockDofs b' with
  | none => simp [hext, hrg'] at hcol
  | some rg' =>
  rw [hext, hrg'] at hcol
  obtain ⟨c, hc, hfirst, hnext⟩ := hcol
  obtain ⟨rg, hrg⟩ := BlockExtDofs_some_block hext
  obtain ⟨hb0, hb1⟩ := BlockDofs_some hrg
  obtain ⟨hb0', hb1'⟩ := BlockDofs_some hrg'
  have hbn : b < n := by
    have := (List.getElem?_eq_some.mp hb1).1
    omega
  have hre : rg.first < rg.next := by
    obtain ⟨h0, e0⟩ := List.getElem?_eq_some.mp hb0
    obtain ⟨h1, e1⟩ := List.getElem?_eq_some.mp hb1
    rw [← e0, ← e1]
    exact List.pairwise_iff_getElem.mp hpw b (b + 1) h0 h1 (Nat.lt_succ_self b)
  have hok := hrows b hbn
  unfold SparseCholeskyTM.FirstRowWithinBounds at hok
  rw [hrg] at hok
  simp only at hok
  cases hrow : s.rowIndices rg.first with
  | none => simp [hrow] at hok
  | some row =>
    rw [hrow] at hok
    simp only at hok
    obtain ⟨-, hl, hcols⟩ := hok
    have hl' : rg.next - rg.first - 1 ≤ row.length := by
      unfold IntRange.Size at hl
      omega
    rw [BlockExtDofs_eq_drop hb0 hb1 hre hrow hl'] at hext
    simp only [Option.some.injEq] at hext
    subst hext
    have hrc := (hcols c (List.mem_of_mem_drop hc)).1
    by_contra hnot
    have hlt : b' < b := by omega
    have := strictIncreasing_le hpw (Nat.succ_le_of_lt hlt) hb1' hb0
    omega

/-- A path of dependency edges leads to a later block. -/
theorem dependsOn_transGen_lt {s : SparseCholeskyTM} {n : Nat} (hp : s.IsBlockPartition n)
    (hrows : ∀ b, b < n → s.FirstRowWithinBounds b) {b b' : Nat}
    (hpath : Relation.TransGen s.dependsOn b b') : b < b' := by
  induction hpath with
  | single h => exact dependsOn_lt hp hrows h
  | tail _ h ih => exact Nat.lt_trans ih (dependsOn_lt hp hrows h)

/-- C2: for every block partition of `[0, height)` in which the first row of each block
has a strictly ascending index list with at least `size - 1` entries, all `>=` the row
and `< height`, every dependency edge goes from a block to a block with a strictly
larger number; so no block depends on itself and no path of dependency edges returns to
its start. -/
theorem block_dependency_acyclic (s : SparseCholeskyTM) (n : Nat)
    (hp : s.IsBlockPartition n) (hrows : ∀ b, b < n → s.FirstRowWithinBounds b) :
    (∀ b b', s.dependsOn b b' → b < b') ∧ (∀ b, ¬ s.dependsOn b b) ∧
    (∀ b, ¬ Relation.TransGen s.dependsOn b b) :=
  ⟨fun _ _ h => dependsOn_lt hp hrows h,
    fun _ h => Nat.lt_irrefl _ (dependsOn_lt hp hrows h),
    fun _ h => Nat.lt_irrefl _ (dependsOn_transGen_lt hp hrows h)⟩

/-- Witness for C2: `twoBlocksDiag`, whose rows list the diagonal; block `0` depends on
block `1`. -/
theorem block_dependency_acyclic_witness :
    twoBlocksDiag.IsBlockPartition 2 ∧ (∀ b, b < 2 → twoBlocksDiag.FirstRowWithinBounds b) ∧
    twoBlocksDiag.dependsOn 0 1 ∧
    ((∀ b b', twoBlocksDiag.dependsOn b b' → b < b') ∧ (∀ b, ¬ twoBlocksDiag.dependsOn b b) ∧
      (∀ b, ¬ Relation.TransGen twoBlocksDiag.dependsOn b b)) :=
  ⟨by decide, by decide, by decide,
    block_dependency_acyclic twoBlocksDiag 2 (by decide) (by decide)⟩

/-! ## Index translation -/

theorem getD_eq_of_lt {l : List Nat} {i : Nat} (h : i < l.length) :
    l[i]? = some (l.getD i 0) := by
  rw [List.getD_eq_getElem?_getD, List.getElem?_eq_getElem h]
  rfl

/-- C4: `SetOrig (i, j, val)` is `Set (order[i], order[j], val)`; and when `order` is a
bijection of `[0, height)` with inverse `inv`, `SetOrig (inv[p], inv[q], val)` is
`Set (p, q, val)` for all `p, q < height`, and two original index pairs with the same
internal index pair are equal. -/
theorem SetOrig_translates {TM ρ : Type} (Set : Nat → Nat → TM → ρ) (s : SparseCholeskyTM)
    (inv : List Nat) (hperm : IsPermutationWithInverse s.order inv s.height) :
    (∀ i j oi oj val, s.order[i]? = some oi → s.order[j]? = some oj →
      s.SetOrig Set i j val = some (Set oi oj val)) ∧
    (∀ i j val, i < s.height → j < s.height →
      s.SetOrig Set i j val = some (Set (s.order.getD i 0) (s.order.getD j 0) val)) ∧
    (∀ p q val, p < s.height → q < s.height →
      s.SetOrig Set (inv.getD p 0) (inv.getD q 0) val = some (Set p q val)) ∧
    (∀ i j i' j', i < s.height → j < s.height → i' < s.height → j' < s.height →
      (s.order.getD i 0, s.order.getD j 0) = (s.order.getD i' 0, s.order.getD j' 0) →
      (i, j) = (i', j')) := by
  obtain ⟨hlo, hli, hoi, hio⟩ := hperm
  have hset : ∀ i j oi oj val, s.order[i]? = some oi → s.order[j]? = some oj →
      s.SetOrig Set i j val = some (Set oi oj val) := by
    intro i j oi oj val hi hj
    simp [SparseCholeskyTM.SetOrig, hi, hj]
  have hget : ∀ i, i < s.height → s.order[i]? = some (s.order.getD i 0) :=
    fun i hi => getD_eq_of_lt (by omega)
  refine ⟨hset, ?_, ?_, ?_⟩
  · intro i j val hi hj
    exact hset _ _ _ _ val (hget i hi) (hget j hj)
  · intro p q val hp hq
    have h1 := hget _ (hio p hp).1
    have h2 := hget _ (hio q hq).1
    rw [(hio p hp).2] at h1
    rw [(hio q hq).2] at h2
    exact hset _ _ _ _ val h1 h2
  · intro i j i' j' hi hj hi' hj' heq
    simp only [Prod.mk.injEq] at heq ⊢
    constructor
    · have := (hoi i hi).2
      rw [heq.1, (hoi i' hi').2] at this
      exact this.symm
    · have := (hoi j hj).2
      rw [heq.2, (hoi j' hj').2] at this
      exact this.symm

/-- Witness for C4: three unknowns, `order = [2, 0, 1]` with inverse `[1, 2, 0]`, and a
`Set` that records its arguments. -/
theorem SetOrig_translates_witness :
    IsPermutationWithInverse [2, 0, 1] [1, 2, 0] 3 ∧
    SparseCholeskyTM.SetOrig (fun p q (v : Int) => (p, q, v))
      ⟨3, [2, 0, 1], [0, 0, 0, 0], [0, 0, 0], [], [0, 3]⟩ ([1, 2, 0].getD 0 0) ([1, 2, 0].getD 2 0) 7
      = some (0, 2, 7) :=
  ⟨by decide,
    (SetOrig_translates (fun p q (v : Int) => (p, q, v))
      ⟨3, [2, 0, 1], [0, 0, 0, 0], [0, 0, 0], [], [0, 3]⟩ [1, 2, 0] (by decide)).2.2.1
      0 2 7 (by decide) (by decide)⟩

/-! ## Dimensions -/

/-- C10: `VHeight () = VWidth () = height`, and `CreateVector ()` returns a vector of
exactly `height` entries: its size is both `VWidth ()`, the size of an argument of
`Mult`, and `VHeight ()`, the size of a result. -/
theorem CreateVector_fits (s : SparseCholeskyTM) {TV : Type} (content : Nat → TV) :
    s.VHeight = s.height ∧ s.VWidth = s.height ∧ s.VHeight = s.VWidth ∧
    (SparseCholesky.CreateVector s content).size = s.height ∧
    (SparseCholesky.CreateVector s content).size = s.VWidth ∧
    (SparseCholesky.CreateVector s content).size = s.VHeight :=
  ⟨rfl, rfl, rfl, rfl, rfl, rfl⟩

/-! ## The smoothing step -/

section Smoothing

variable {n R : Type} [Fintype n] [CommRing R]

/-- The residual relation survives the updates of the smoothing step. -/
theorem smoothUpdate_residual (L D : Matrix n n R) (Cinv : (n → R) → (n → R))
    (st : SmoothVectors n R) (h : st.y = st.f - (L + D).transpose.mulVec st.u) :
    (smoothUpdate L D Cinv st).y =
      (smoothUpdate L D Cinv st).f - (L + D).transpose.mulVec (smoothUpdate L D Cinv st).u := by
  simp only [smoothUpdate, Matrix.mulVec_add, h]
  abel

/-- C5: if `y = f - (L+D)^T u` holds before the step, then after `w = C^{-1}(y - L u)`,
`u += w`, `y -= (L+D)^T w` the updated vectors satisfy `y = f - (L+D)^T u` again and
`f` is unchanged, for all `L`, `D`, every operator `C^{-1}` and all `u`, `f`; the step
that first computes the residual gives the same vectors. -/
theorem Smooth_keeps_residual (L D : Matrix n n R) (Cinv : (n → R) → (n → R))
    (u f y : n → R) (h : y = f - (L + D).transpose.mulVec u) :
    (smoothUpdate L D Cinv ⟨u, f, y⟩).y =
      f - (L + D).transpose.mulVec (smoothUpdate L D Cinv ⟨u, f, y⟩).u ∧
    (smoothUpdate L D Cinv ⟨u, f, y⟩).f = f ∧
    Smooth L D Cinv ⟨u, f, y⟩ = smoothUpdate L D Cinv ⟨u, f, y⟩ := by
  refine ⟨smoothUpdate_residual L D Cinv ⟨u, f, y⟩ h, rfl, ?_⟩
  simp only [Smooth, h]

/-- The matrix form of a restricted inverse: `C^{-1} A C^{-1} = C^{-1}`. -/
theorem restrictedInverse_mul_mul [DecidableEq n] {A Cinv : Matrix n n R} {I : Finset n}
    (hC : IsRestrictedInverse A Cinv I) : Cinv * (A * Cinv) = Cinv := by
  obtain ⟨hzero, hright, -⟩ := hC
  ext i k
  rw [Matrix.mul_apply]
  by_cases hi : i ∈ I
  · by_cases hk : k ∈ I
    · have hinner : ∀ j ∈ I, (A * Cinv) j k = if j = k then 1 else 0 := by
        intro j hj
        rw [Matrix.mul_apply, ← hright j hj k hk]
        symm
        apply Finset.sum_subset (Finset.subset_univ I)
        intro l _ hl
        rw [hzero l k (Or.inl hl), mul_zero]
      have houter : (∑ j, Cinv i j * (A * Cinv) j k) = ∑ j ∈ I, Cinv i j * (A * Cinv) j k := by
        symm
        apply Finset.sum_subset (Finset.subset_univ I)
        intro j _ hj
        rw [hzero i j (Or.inr hj), zero_mul]
      rw [houter, Finset.sum_congr rfl (fun j hj => by rw [hinner j hj])]
      simp only [mul_ite, mul_one, mul_zero]
      rw [Finset.sum_ite_eq' I k (fun j => Cinv i j), if_pos hk]
    · rw [hzero i k (Or.inr hk)]
      apply Finset.sum_eq_zero
      intro j _
      have : (A * Cinv) j k = 0 := by
        rw [Matrix.mul_apply]
        apply Finset.sum_eq_zero
        intro l _
        rw [hzero l k (Or.inr hk), mul_zero]
      rw [this, mul_zero]
  · rw [hzero i k (Or.inl hi)]
    apply Finset.sum_eq_zero
    intro j _
    rw [hzero i j (Or.inl hi), zero_mul]

/-- With every unknown active, a restricted inverse is a right inverse. -/
theorem restrictedInverse_univ [DecidableEq n] {A Cinv : Matrix n n R}
    (hC : IsRestrictedInverse A Cinv Finset.univ) : A * Cinv = 1 := by
  obtain ⟨-, hright, -⟩ := hC
  ext i k
  rw [Matrix.mul_apply, hright i (Finset.mem_univ i) k (Finset.mem_univ k), Matrix.one_apply]

/-- The correction of the step is `C^{-1} (f - A u)` when the residual relation holds and
`D` is diagonal. -/
theorem smoothCorrection_eq (L D Cinv : Matrix n n R) (st : SmoothVectors n R)
    (hD : D.transpose = D) (h : st.y = st.f - (L + D).transpose.mulVec st.u) :
    smoothCorrection L Cinv.mulVec st =
      Cinv.mulVec (st.f - (L + D + L.transpose).mulVec st.u) := by
  unfold smoothCorrection
  have hv : st.y - L.mulVec st.u = st.f - (L + D + L.transpose).mulVec st.u := by
    rw [h, Matrix.transpose_add, hD]
    simp only [Matrix.add_mulVec]
    abel
  rw [hv]

/-- C6: with `A = L + D + L^T`, `D` diagonal, `I` a set of active unknowns and `C^{-1}`
the inverse of `A` restricted to `I`, zero elsewhere: the correction of the step is
`w = C^{-1} (f - A u)`; a second step with the same `f` has correction `0` and leaves the
vectors unchanged; and when every unknown is active, one step yields `A u = f`. -/
theorem Smooth_is_projection [DecidableEq n] (L D Cinv : Matrix n n R) (I : Finset n)
    (u f y : n → R) (hD : D.IsDiag)
    (hC : IsRestrictedInverse (L + D + L.transpose) Cinv I)
    (hy : y = f - (L + D).transpose.mulVec u) :
    smoothCorrection L Cinv.mulVec ⟨u, f, y⟩ =
      Cinv.mulVec (f - (L + D + L.transpose).mulVec u) ∧
    smoothCorrection L Cinv.mulVec (Smooth L D Cinv.mulVec ⟨u, f, y⟩) = 0 ∧
    Smooth L D Cinv.mulVec (Smooth L D Cinv.mulVec ⟨u, f, y⟩) =
      Smooth L D Cinv.mulVec ⟨u, f, y⟩ ∧
    (I = Finset.univ → (L + D + L.transpose).mulVec (Smooth L D Cinv.mulVec ⟨u, f, y⟩).u = f) := by
  have hDt : D.transpose = D := hD.isSymm.eq
  have hS : Smooth L D Cinv.mulVec ⟨u, f, y⟩ = smoothUpdate L D Cinv.mulVec ⟨u, f, y⟩ := by
    simp only [Smooth, hy]
  have hw := smoothCorrection_eq L D Cinv ⟨u, f, y⟩ hDt hy
  have hres := smoothUpdate_residual L D Cinv.mulVec ⟨u, f, y⟩ hy
  have key : ∀ r : n → R, Cinv.mulVec ((L + D + L.transpose).mulVec (Cinv.mulVec r)) =
      Cinv.mulVec r := by
    intro r
    rw [Matrix.mulVec_mulVec, Matrix.mulVec_mulVec, Matrix.mul_assoc,
      restrictedInverse_mul_mul hC]
  have hw2 : smoothCorrection L Cinv.mulVec (smoothUpdate L D Cinv.mulVec ⟨u, f, y⟩) = 0 := by
    rw [smoothCorrection_eq L D Cinv _ hDt hres]
    show Cinv.mulVec (f - (L + D + L.transpose).mulVec
      (u + smoothCorrection L Cinv.mulVec ⟨u, f, y⟩)) = 0
    rw [hw]
    show Cinv.mulVec (f - (L + D + L.transpose).mulVec
      (u + Cinv.mulVec (f - (L + D + L.transpose).mulVec u))) = 0
    rw [Matrix.mulVec_add, sub_add_eq_sub_sub, Matrix.mulVec_sub, key, sub_self]
  have hfix : smoothUpdate L D Cinv.mulVec (smoothUpdate L D Cinv.mulVec ⟨u, f, y⟩) =
      smoothUpdate L D Cinv.mulVec ⟨u, f, y⟩ := by
    have hstep : ∀ st : SmoothVectors n R, smoothCorrection L Cinv.mulVec st = 0 →
        smoothUpdate L D Cinv.mulVec st = st := by
      intro st h0
      ext i
      · simp [smoothUpdate, h0]
      · simp [smoothUpdate]
      · simp [smoothUpdate, h0]
    exact hstep _ hw2
  refine ⟨hw, ?_, ?_, ?_⟩
  · rw [hS]
    exact hw2
  · rw [hS]
    have : Smooth L D Cinv.mulVec (smoothUpdate L D Cinv.mulVec ⟨u, f, y⟩) =
        smoothUpdate L D Cinv.mulVec (smoothUpdate L D Cinv.mulVec ⟨u, f, y⟩) := by
      unfold Smooth
      rw [← hres]
    rw [this, hfix]
  · intro hI
    subst hI
    rw [hS]
    show (L + D + L.transpose).mulVec (u + smoothCorrection L Cinv.mulVec ⟨u, f, y⟩) = f
    rw [hw]
    show (L + D + L.transpose).mulVec
      (u + Cinv.mulVec (f - (L + D + L.transpose).mulVec u)) = f
    rw [Matrix.mulVec_add, Matrix.mulVec_mulVec, restrictedInverse_univ hC,
      Matrix.one_mulVec]
    abel

end Smoothing

theorem exampleD_isDiag : exampleD.IsDiag := Matrix.isDiag_diagonal _

theorem exampleCinv_restricted :
    IsRestrictedInverse (exampleL + exampleD + exampleL.transpose) exampleCinv {0} := by
  refine ⟨?_, ?_, ?_⟩
  · intro i j h
    fin_cases i <;> fin_cases j <;> simp [exampleCinv] at h ⊢
  · intro i hi k hk
    simp only [Finset.mem_singleton] at hi hk
    subst hi
    subst hk
    simp [exampleL, exampleD, exampleCinv]
  · intro i hi k hk
    simp only [Finset.mem_singleton] at hi hk
    subst hi
    subst hk
    simp [exampleL, exampleD, exampleCinv]

/-- Witness for C5: the example matrices, `u = [1, 1]`, `f = [3, 5]`. -/
theorem Smooth_keeps_residual_witness :
    (smoothUpdate exampleL exampleD exampleCinv.mulVec
        ⟨![1, 1], ![3, 5], ![3, 5] - (exampleL + exampleD).transpose.mulVec ![1, 1]⟩).y =
      ![3, 5] - (exampleL + exampleD).transpose.mulVec
        (smoothUpdate exampleL exampleD exampleCinv.mulVec
          ⟨![1, 1], ![3, 5], ![3, 5] - (exampleL + exampleD).transpose.mulVec ![1, 1]⟩).u ∧
    (smoothUpdate exampleL exampleD exampleCinv.mulVec
        ⟨![1, 1], ![3, 5], ![3, 5] - (exampleL + exampleD).transpose.mulVec ![1, 1]⟩).f =
      ![3, 5] ∧
    Smooth exampleL exampleD exampleCinv.mulVec
        ⟨![1, 1], ![3, 5], ![3, 5] - (exampleL + exampleD).transpose.mulVec ![1, 1]⟩ =
      smoothUpdate exampleL exampleD exampleCinv.mulVec
        ⟨![1, 1], ![3, 5], ![3, 5] - (exampleL + exampleD).transpose.mulVec ![1, 1]⟩ :=
  Smooth_keeps_residual exampleL exampleD exampleCinv.mulVec ![1, 1] ![3, 5] _ rfl

theorem exampleAinv_restricted :
    IsRestrictedInverse (exampleL + exampleD + exampleL.transpose) exampleAinv Finset.univ := by
  refine ⟨?_, ?_, ?_⟩
  · intro i j h
    simp at h
  · intro i _ k _
    fin_cases i <;> fin_cases k <;>
      norm_num [Fin.sum_univ_two, exampleL, exampleD, exampleAinv, Matrix.transpose,
        Matrix.vecHead]
  · intro i _ k _
    fin_cases i <;> fin_cases k <;>
      norm_num [Fin.sum_univ_two, exampleL, exampleD, exampleAinv, Matrix.transpose,
        Matrix.vecHead]

/-- Witness for C6: the example matrices with `u = [1, 1]`, `f = [3, 5]`; with the first
unknown active the step is idempotent, with both unknowns active it solves the system. -/
theorem Smooth_is_projection_witness :
    exampleD.IsDiag ∧
    IsRestrictedInverse (exampleL + exampleD + exampleL.transpose) exampleCinv {0} ∧
    IsRestrictedInverse (exampleL + exampleD + exampleL.transpose) exampleAinv Finset.univ ∧
    Smooth exampleL exampleD exampleCinv.mulVec
        (Smooth exampleL exampleD exampleCinv.mulVec
          ⟨![1, 1], ![3, 5], ![3, 5] - (exampleL + exampleD).transpose.mulVec ![1, 1]⟩) =
      Smooth exampleL exampleD exampleCinv.mulVec
        ⟨![1, 1], ![3, 5], ![3, 5] - (exampleL + exampleD).transpose.mulVec ![1, 1]⟩ ∧
    (exampleL + exampleD + exampleL.transpose).mulVec
      (Smooth exampleL exampleD exampleAinv.mulVec
        ⟨![1, 1], ![3, 5], ![3, 5] - (exampleL + exampleD).transpose.mulVec ![1, 1]⟩).u =
      ![3, 5] :=
  ⟨exampleD_isDiag, exampleCinv_restricted, exampleAinv_restricted,
    (Smooth_is_projection exampleL exampleD exampleCinv {0} ![1, 1] ![3, 5] _
      exampleD_isDiag exampleCinv_restricted rfl).2.2.1,
    (Smooth_is_projection exampleL exampleD exampleAinv Finset.univ ![1, 1] ![3, 5] _
      exampleD_isDiag exampleAinv_restricted rfl).2.2.2 rfl⟩

/-! ## The tridiagonal scenario -/

/-- C7: for the 5x5 tridiagonal matrix with diagonal `2` and off-diagonal `-1`, in exact
rational arithmetic, elimination without pivoting in natural order gives a unit
lower-triangular `L` with `L[i][i-1] = -i/(i+1)` and every other off-diagonal entry
zero, and `D[i][i] = (i+2)/(i+1)`, no pivot being zero; `L D L^T` is the matrix; and
for `b = [1,0,0,0,1]` forward solve, scaling by `D^{-1}` and backward solve give
`x = [1,1,1,1,1]`, which satisfies `A x = b`. -/
theorem tridiag_factor_solve :
    (∀ i, i < 5 → 1 ≤ i → factorL tridiag i (i - 1) = -(i : ℚ) / ((i : ℚ) + 1)) ∧
    (∀ i, i < 5 → ∀ j, j < 5 → i ≠ j → i ≠ j + 1 → factorL tridiag i j = 0) ∧
    (∀ i, i < 5 → factorL tridiag i i = 1) ∧
    (∀ i, i < 5 → factorD tridiag i = ((i : ℚ) + 2) / ((i : ℚ) + 1)) ∧
    (∀ i, i < 5 → factorD tridiag i ≠ 0) ∧
    (∀ i, i < 5 → ∀ j, j < 5 →
      ((List.range 5).map
        (fun k => factorL tridiag i k * factorD tridiag k * factorL tridiag j k)).sum =
        tridiag i j) ∧
    Mult 5 (factorL tridiag) (factorD tridiag) rhs5 = [1, 1, 1, 1, 1] ∧
    (∀ i, i < 5 →
      ((List.range 5).map (fun j => tridiag i j *
        (Mult 5 (factorL tridiag) (factorD tridiag) rhs5).getD j 0)).sum = rhs5 i) := by
  decide!

end ngla
